import Mathlib

/-!
Verification development for the kouban-hyo (script-matrix) generator.

The definitions below are a shallow embedding of the TypeScript source:
the client pipeline of `src/unnamed/part_006` (`splitTextIntoChunks`,
`extractCharacterWithAge`, `processChunkWithRetry`, `performPreScan`,
`performDetailedExtraction`), the normalizer helpers of
`src/unnamed/part_002` (`determineDN`), and the chunked server handler of
`src/app/api/generate/route.ts` (`mergeCharacters`, the per-chunk loop and
the presence-matrix construction of its `POST`).

JavaScript dynamic values that actually flow through these functions are
modelled by `JVal` (number / string / undefined); strings are modelled as
Lean `String` (sequences of code points; all inputs the app handles live in
the BMP, where JS UTF-16 code-unit operations agree with code-point
operations).
-/

namespace ScriptMatrix

/-- A JavaScript value as it occurs in the scene records handled by the
merge code: a number, a string, or `undefined`.  (Numbers are modelled as
integers; every number the pipeline produces for episode / scene_number
is an integer.) -/
inductive JVal where
  | num (n : Int)
  | str (s : String)
  | undef
deriving DecidableEq, Repr

/-- JS truthiness on `JVal`: `0`, the empty string and `undefined` are falsy. -/
def JVal.falsy : JVal → Bool
  | .num n => n == 0
  | .str s => s == ""
  | .undef => true

/-- JS `a || b` on `JVal`. -/
def JVal.orElse (a b : JVal) : JVal :=
  if a.falsy then b else a

/-- JS `String(v)` / template-literal conversion of a `JVal`. -/
def JVal.toStr : JVal → String
  | .num n => toString n
  | .str s => s
  | .undef => "undefined"

/-- JS `a || b` for an optional string against a default (used for
`data.error_message || '...'`): `undefined` and `""` take the default. -/
def jsOrDefault (a : Option String) (d : String) : String :=
  match a with
  | none => d
  | some s => if s = "" then d else s

/-- Characters treated as whitespace by the JS `\s` class and `trim()`
that can occur in this app's inputs (ASCII whitespace and the ideographic
space). -/
def jsWhitespace (c : Char) : Bool :=
  c == ' ' || c == '\t' || c == '\n' || c == '\r' ||
  c == '\x0b' || c == '\x0c' || c == '　'

/-- JS `String.prototype.trim()` on a list of characters. -/
def trimCharList (l : List Char) : List Char :=
  ((l.dropWhile jsWhitespace).reverse.dropWhile jsWhitespace).reverse

/-- JS `s.trim()`. -/
def jsTrim (s : String) : String :=
  String.mk (trimCharList s.data)

/-- Does `p` occur as a prefix of `l`? -/
def charsPrefixOf : List Char → List Char → Bool
  | [], _ => true
  | _ :: _, [] => false
  | a :: as, b :: bs => a == b && charsPrefixOf as bs

/-- Does `p` occur as a contiguous run inside `l`? -/
def charsInfixOf (p l : List Char) : Bool :=
  match l with
  | [] => p.isEmpty
  | c :: rest => charsPrefixOf p (c :: rest) || charsInfixOf p rest

/-- JS `hay.includes(needle)` (substring containment). -/
def jsIncludes (hay needle : String) : Bool :=
  charsInfixOf needle.data hay.data

/-- JS `String.prototype.toLowerCase()`, modelled character-wise with
`Char.toLower`.  All keywords tested by `determineDN` are CJK characters,
which case mapping leaves fixed, so the ASCII-only simple mapping of
`Char.toLower` is faithful on every codepath the claims exercise. -/
def jsToLower (s : String) : String :=
  String.mk (s.data.map Char.toLower)

/-- `determineDN` of `src/unnamed/part_002` (lines 13–32): night keywords
win, then day keywords, else the empty code. -/
def determineDN (timeOfDay : String) : String :=
  if timeOfDay = "" then ""
  else
    let normalized := jsToLower timeOfDay
    if jsIncludes normalized "夜" || jsIncludes normalized "深夜" then "N"
    else if jsIncludes normalized "朝" || jsIncludes normalized "昼" ||
            jsIncludes normalized "夕" || jsIncludes normalized "夕方" ||
            jsIncludes normalized "午前" || jsIncludes normalized "午後" then "D"
    else ""

/-- The night keywords of `determineDN`, as one Bool test on the raw
(unlowercased) input string. -/
def nightHit (s : String) : Bool :=
  jsIncludes s "夜" || jsIncludes s "深夜"

/-- The day keywords of `determineDN`, as one Bool test on the raw input. -/
def dayHit (s : String) : Bool :=
  jsIncludes s "朝" || jsIncludes s "昼" || jsIncludes s "夕" ||
  jsIncludes s "夕方" || jsIncludes s "午前" || jsIncludes s "午後"

/-! ### The chunker of `src/unnamed/part_006` (lines 30–43)

`splitTextIntoChunks` is a `while` loop; it is embedded with explicit fuel
(`none` = the loop has not terminated within `fuel` iterations).  `position`
is an `Int` because `end - overlap` can go negative, and JS `slice` then
interprets the negative index from the end of the string. -/

/-- JS `text.slice(start, end)` on a list of characters, with the
ECMAScript clamping rules for negative and out-of-range indices. -/
def jsSlice (l : List Char) (start stop : Int) : List Char :=
  let len : Int := l.length
  let f := if start < 0 then max (len + start) 0 else min start len
  let t := if stop < 0 then max (len + stop) 0 else min stop len
  (l.drop f.toNat).take (t - f).toNat

/-- One-loop-per-fuel-unit embedding of the `while` loop of
`splitTextIntoChunks`. -/
def splitChunksGo (fuel : Nat) (l : List Char) (chunkSize overlap : Int)
    (position : Int) (acc : List (List Char)) : Option (List (List Char)) :=
  match fuel with
  | 0 => none
  | fuel + 1 =>
    if position < (l.length : Int) then
      let e := min (position + chunkSize) (l.length : Int)
      let chunk := jsSlice l position e
      let acc := acc ++ [chunk]
      let position := e - overlap
      if position ≥ (l.length : Int) then some acc
      else splitChunksGo fuel l chunkSize overlap position acc
    else some acc

/-- `splitTextIntoChunks(text, chunkSize, overlap)` of
`src/unnamed/part_006`, with fuel. -/
def splitTextIntoChunks (fuel : Nat) (text : List Char)
    (chunkSize overlap : Int) : Option (List (List Char)) :=
  splitChunksGo fuel text chunkSize overlap 0 []

/-! ### `extractCharacterWithAge` (identical in `src/unnamed/part_006` and
`src/app/api/generate/route.ts`)

The regex `/(.+?)\s*[(（](\d+)[)）]/` run by `name.match` finds, at the
leftmost possible match start (which is offset 0 whenever any match
exists), the earliest position `p ≥ 1` at which an opening parenthesis is
followed by one or more ASCII digits and a closing parenthesis; the lazily
captured group 1 is then the text before `p` with the whitespace consumed
by `\s*` removed, and the code `.trim()`s it, so the resulting name is
`trim(s[0..p))`.  The embedding below scans for that earliest `p`. -/

/-- Opening parenthesis class of the age regex. -/
def isOpenParen (c : Char) : Bool := c == '(' || c == '（'

/-- Closing parenthesis class of the age regex. -/
def isCloseParen (c : Char) : Bool := c == ')' || c == '）'

/-- ASCII digit run at the head of `l`, followed by a closing parenthesis:
returns the digits when `l` starts with `\d+[)）]`. -/
def digitsThenClose (l : List Char) : Option (List Char) :=
  let ds := l.takeWhile Char.isDigit
  match l.drop ds.length with
  | c :: _ => if ds ≠ [] && isCloseParen c then some ds else none
  | [] => none

/-- Does `[(（]\d+[)）]` match at the head of `l`?  Returns the digits. -/
def parenAgeAt (l : List Char) : Option (List Char) :=
  match l with
  | c :: rest => if isOpenParen c then digitsThenClose rest else none
  | [] => none

/-- Scan for the earliest position `≥ 1` where `[(（]\d+[)）]` matches;
`pre` accumulates the characters before that position. -/
def findAgeSplit (pre : List Char) : List Char → Option (List Char × List Char)
  | [] => none
  | c :: rest =>
    match parenAgeAt (c :: rest) with
    | some ds => some (pre, ds)
    | none => findAgeSplit (pre ++ [c]) rest

/-- Result record of `extractCharacterWithAge`. -/
structure CharInfo where
  name : String
  age : Option String
deriving DecidableEq, Repr

/-- `extractCharacterWithAge(name)` of `src/unnamed/part_006` (lines 46–52)
and `src/app/api/generate/route.ts`: split off a parenthesised age
annotation, trimming the base name. -/
def extractCharacterWithAge (s : String) : CharInfo :=
  match s.data with
  | [] => { name := jsTrim s, age := none }
  | c :: rest =>
    match findAgeSplit [c] rest with
    | some (pre, ds) => { name := String.mk (trimCharList pre), age := some (String.mk ds) }
    | none => { name := jsTrim s, age := none }

/-! ### Data model for the detailed-extraction pipeline of
`src/unnamed/part_006`

A raw scene as it arrives from one per-chunk oracle response (the
`mode: 'extract'` responses produced against the prompt of
`src/unnamed/part_003`): `episode` is a JSON number or absent;
`scene_number` and `scene` are arbitrary JS values (number, string or
absent). -/
structure RawScene where
  episode : Option Nat
  scene_number : JVal
  scene : JVal
  location : String
  timeOfDay : String
  content : String
  characters : List String
  props : String
  notes : String
deriving DecidableEq, Repr

/-- One successful per-chunk extraction response, as consumed by the merge
loop of `performDetailedExtraction`. -/
structure ExtractionResult where
  characters : List String
  scenes : List RawScene
deriving DecidableEq, Repr

/-- The value stored in `scenesMap`: `{ ...scene, episode, scene_number: sceneNum }`
(the stale `scene` field of the spread is dropped; nothing downstream
reads it). -/
structure MergedScene where
  episode : Nat
  scene_number : JVal
  location : String
  timeOfDay : String
  content : String
  characters : List String
  props : String
  notes : String
deriving DecidableEq, Repr

/-- `scene.episode || 1`: absent or `0` (falsy) becomes episode 1. -/
def epOf (s : RawScene) : Nat :=
  match s.episode with
  | none => 1
  | some e => if e = 0 then 1 else e

/-- `scene.scene_number || scene.scene`. -/
def snOf (s : RawScene) : JVal :=
  s.scene_number.orElse s.scene

/-- The map key `` `${episode}-${sceneNum}` ``. -/
def rawKey (s : RawScene) : String :=
  toString (epOf s) ++ "-" ++ (snOf s).toStr

/-- The key a stored merged scene corresponds to. -/
def mkey (m : MergedScene) : String :=
  toString m.episode ++ "-" ++ m.scene_number.toStr

/-- `{ ...scene, episode, scene_number: sceneNum }`. -/
def normScene (s : RawScene) : MergedScene :=
  { episode := epOf s
    scene_number := snOf s
    location := s.location
    timeOfDay := s.timeOfDay
    content := s.content
    characters := s.characters
    props := s.props
    notes := s.notes }

/-- Lookup in the insertion-ordered association list modelling the JS `Map`. -/
def alookup (k : String) : List (String × MergedScene) → Option MergedScene
  | [] => none
  | e :: rest => if e.1 = k then some e.2 else alookup k rest

/-- `Map.set` on an existing key: replace in place (JS `Map` keeps the
original insertion position of the key). -/
def areplace (k : String) (v : MergedScene) :
    List (String × MergedScene) → List (String × MergedScene)
  | [] => []
  | e :: rest => if e.1 = k then (k, v) :: rest else e :: areplace k v rest

/-- One iteration of the scene-merge loop (`src/unnamed/part_006`
lines 243–251): insert when the key is absent, replace when the incoming
content is strictly longer. -/
def sceneMapStep (m : List (String × MergedScene)) (s : RawScene) :
    List (String × MergedScene) :=
  match alookup (rawKey s) m with
  | none => m ++ [(rawKey s, normScene s)]
  | some t =>
    if t.content.length < s.content.length then areplace (rawKey s) (normScene s) m
    else m

/-- The fully built `scenesMap` (lines 238–252). -/
def sceneMapOf (results : List ExtractionResult) : List (String × MergedScene) :=
  results.foldl (fun m r => r.scenes.foldl sceneMapStep m) []

/-- `Array.from(scenesMap.values())`. -/
def dedupScenes (results : List ExtractionResult) : List MergedScene :=
  (sceneMapOf results).map Prod.snd

/-- All raw scenes of all results, in processing order. -/
def allRawScenes (results : List ExtractionResult) : List RawScene :=
  (results.map ExtractionResult.scenes).flatten

/-! ### Sorting of the merged scenes (`src/unnamed/part_006` lines 254–257)

The comparator is `a.episode - b.episode`, falling back to
`a.scene_number - b.scene_number`.  Scene numbers are JS values; the
subtraction coerces them with `ToNumber`, and when either side fails to
coerce the comparator evaluates to `NaN`, which `Array.prototype.sort`
treats as `0` (the pair compares as equal).  `Array.prototype.sort` is
stable, so the sort is embedded as a stable insertion sort over the
Boolean test `cmpScene y x ≤ 0`. -/

/-- All-ASCII-digit run parsed as a natural number (`none` when empty or
any non-digit occurs). -/
def parseDigits (l : List Char) : Option Nat :=
  if l ≠ [] && l.all Char.isDigit then
    some (l.foldl (fun n c => n * 10 + (c.toNat - 48)) 0)
  else none

/-- The integer fragment of JS `ToNumber` on strings: whitespace is
trimmed, the empty string coerces to `0`, an optionally signed digit
string to its value, anything else (including the fractional and
exponent forms, which never arise for scene numbers) to `NaN` (`none`). -/
def jsStrToNumber (s : String) : Option Int :=
  match trimCharList s.data with
  | [] => some 0
  | '+' :: rest => (parseDigits rest).map Int.ofNat
  | '-' :: rest => (parseDigits rest).map fun n => -(n : Int)
  | l => (parseDigits l).map Int.ofNat

/-- JS `ToNumber` on a `JVal` (`none` = `NaN`). -/
def JVal.toNumber : JVal → Option Int
  | .num n => some n
  | .str s => jsStrToNumber s
  | .undef => none

/-- The sort comparator of lines 254–257, with `NaN` already collapsed to
`0` as `Array.prototype.sort` does. -/
def cmpScene (a b : MergedScene) : Int :=
  if a.episode = b.episode then
    match a.scene_number.toNumber, b.scene_number.toNumber with
    | some x, some y => x - y
    | _, _ => 0
  else (a.episode : Int) - (b.episode : Int)

/-- Stable insertion: `x` goes after every earlier element that compares
less-or-equal to it. -/
def insertScene (x : MergedScene) : List MergedScene → List MergedScene
  | [] => [x]
  | y :: ys => if cmpScene y x ≤ 0 then y :: insertScene x ys else x :: y :: ys

/-- The stable sort `Array.from(scenesMap.values()).sort(...)`. -/
def sortScenes (l : List MergedScene) : List MergedScene :=
  l.foldl (fun acc x => insertScene x acc) []

/-- `sortedScenes` of `performDetailedExtraction`. -/
def sortedScenes (results : List ExtractionResult) : List MergedScene :=
  sortScenes (dedupScenes results)

/-! ### Character roster (`src/unnamed/part_006` lines 259–267) -/

/-- JS `Set` insertion: append if not already present. -/
def addToSet (acc : List String) (c : String) : List String :=
  if acc.contains c then acc else acc ++ [c]

/-- The `allCharacters` set accumulated over all results. -/
def allCharsOf (results : List ExtractionResult) : List String :=
  results.foldl (fun acc r => r.characters.foldl addToSet acc) []

/-- Code-point lexicographic strict order on character lists (the order
used by comparator-less `Array.prototype.sort`; identical to the UTF-16
code-unit order on the BMP strings this app handles). -/
def charsLtB : List Char → List Char → Bool
  | [], [] => false
  | [], _ :: _ => true
  | _ :: _, [] => false
  | a :: as, b :: bs => if a < b then true else if b < a then false else charsLtB as bs

/-- Strict string order for the default JS sort. -/
def strLtB (a b : String) : Bool := charsLtB a.data b.data

/-- Stable insertion for the default string sort. -/
def insertStr (x : String) : List String → List String
  | [] => [x]
  | y :: ys => if strLtB x y then x :: y :: ys else y :: insertStr x ys

/-- Comparator-less `Array.prototype.sort()` on strings. -/
def sortStrings (l : List String) : List String :=
  l.foldl (fun acc x => insertStr x acc) []

/-- `sortedCharacters` of `performDetailedExtraction`. -/
def charactersOf (results : List ExtractionResult) : List String :=
  sortStrings (allCharsOf results)

/-! ### Presence matrix and final table (`src/unnamed/part_006`
lines 269–291; the same `reduce` appears in
`src/app/api/generate/route.ts`) -/

/-- JS `a || d` on strings. -/
def jsOrStr (a d : String) : String := if a = "" then d else a

/-- The per-roster-entry presence test: listed verbatim, or equal base
name after stripping any age annotation. -/
def rawPresent (sceneChars : List String) (ch : String) : Bool :=
  let name := (extractCharacterWithAge ch).name
  sceneChars.any fun sc => sc == ch || (extractCharacterWithAge sc).name == name

/-- The `reduce` building `acc[char] = isPresent` over the roster, as an
insertion-ordered association list. -/
def presenceRow (roster sceneChars : List String) : List (String × Bool) :=
  roster.foldl (fun acc ch => acc ++ [(ch, rawPresent sceneChars ch)]) []

/-- A row of the final table (`SceneData` of the client). -/
structure SceneData where
  scene : String
  location : String
  timeOfDay : String
  content : String
  characters : List (String × Bool)
  props : String
  notes : String
deriving DecidableEq, Repr

/-- The `processedScenes` mapping of lines 269–285. -/
def toSceneData (roster : List String) (m : MergedScene) : SceneData :=
  { scene :=
      if 1 < m.episode then toString m.episode ++ "-" ++ m.scene_number.toStr
      else m.scene_number.toStr
    location := m.location
    timeOfDay := jsOrStr m.timeOfDay ""
    content := m.content
    characters := presenceRow roster m.characters
    props := jsOrStr m.props ""
    notes := jsOrStr m.notes "" }

/-- The final `MatrixData`. -/
structure MatrixData where
  characters : List String
  scenes : List SceneData
deriving DecidableEq, Repr

/-- The merge-and-normalize tail of `performDetailedExtraction`
(lines 237–291), from the list of successful per-chunk results. -/
def mergeResults (results : List ExtractionResult) : MatrixData :=
  { characters := charactersOf results
    scenes := (sortedScenes results).map (toSceneData (charactersOf results)) }

/-! ### Orchestration (`src/unnamed/part_006` lines 111–235)

Each chunk's interaction with the network and the oracle is modelled by
the list of responses its successive attempts would receive.  The batched
concurrency appends results in completion order within a batch of three;
the model fixes chunk-index order (the claims proved below do not depend
on that choice). -/

/-- One per-chunk oracle reply body. -/
structure OracleReply where
  is_script : Bool
  error_message : Option String
  characters : List String
  scenes : List RawScene
deriving DecidableEq, Repr

/-- Outcome of a single `fetch` attempt for a chunk. -/
inductive AttemptResp where
  | httpError (msg : String)
  | reply (r : OracleReply)
deriving DecidableEq, Repr

/-- `MAX_RETRIES` of `src/unnamed/part_006`. -/
def MAX_RETRIES : Nat := 3

/-- What one attempt contributes: a transport failure and a reply with
`is_script: false` are both thrown and retried; only a reply with
`is_script: true` returns data. -/
def attemptSuccess : AttemptResp → Option ExtractionResult
  | .httpError _ => none
  | .reply r => if r.is_script then some ⟨r.characters, r.scenes⟩ else none

/-- `processChunkWithRetry`: the first successful attempt among the first
`MAX_RETRIES`, else the chunk fails (the thrown error is caught by the
caller and only counted). -/
def processChunkWithRetry (attempts : List AttemptResp) : Option ExtractionResult :=
  (attempts.take MAX_RETRIES).findSome? attemptSuccess

/-- `performDetailedExtraction` (lines 195–291): run every chunk, drop the
failures, fail when nothing succeeded, else merge. -/
def performDetailedExtraction (chunks : List (List AttemptResp)) :
    Except String MatrixData :=
  let results := chunks.filterMap processChunkWithRetry
  if results = [] then Except.error "全てのセクションの処理に失敗しました。"
  else Except.ok (mergeResults results)

/-- The prescan reply consumed by `performPreScan` (lines 166–192). -/
structure PrescanReply where
  is_script : Bool
  error_message : Option String
  characters : List String
deriving DecidableEq, Repr

/-- The `handleSubmit` flow for text input (lines 373–377): a not-a-script
prescan throws before `performDetailedExtraction` is ever entered. -/
def clientPipeline (pre : PrescanReply) (chunks : List (List AttemptResp)) :
    Except String MatrixData :=
  if pre.is_script then performDetailedExtraction chunks
  else Except.error (jsOrDefault pre.error_message "台本形式ではありません")

/-! ### The chunked server handler (second revision inside
`src/app/api/generate/route.ts`, lines 249–434 of the file) -/

/-- A scene record of the route handler's `SceneData`. -/
structure RouteScene where
  scene : String
  location : String
  timeOfDay : String
  content : String
  characters : List String
  props : String
  notes : String
deriving DecidableEq, Repr

/-- A parsed per-chunk oracle response of the route handler. -/
structure RouteParsed where
  is_script : Bool
  error_message : Option String
  characters : List String
  scenes : List RouteScene
deriving DecidableEq, Repr

/-- One addition of the `mergeCharacters` loop: an age-annotated name is
re-added in canonical `name(age)` form, a plain name by its base name. -/
def mergeCharStep (acc : List String) (c : String) : List String :=
  let info := extractCharacterWithAge c
  match info.age with
  | some a => addToSet acc (info.name ++ "(" ++ a ++ ")")
  | none => addToSet acc info.name

/-- `mergeCharacters(existing, newChars)`: re-collect `existing` into a
set, add each new name in canonical `name(age)` / `name` form, sort. -/
def mergeCharacters (existing newChars : List String) : List String :=
  let base := existing.foldl addToSet []
  sortStrings (newChars.foldl mergeCharStep base)

/-- Accumulator of the route handler's chunk loop. -/
structure RouteAcc where
  allCharacters : List String
  allScenes : List RouteScene
  isScriptDetected : Bool
  errorMessage : String
deriving DecidableEq, Repr

/-- One iteration of the chunk loop (`route.ts` lines 291–382): an
unparseable response (`none`) is skipped; a not-a-script response only
records its message when it is chunk 0 and is otherwise skipped; a script
response merges characters and appends scenes. -/
def routeStep (acc : RouteAcc) (i : Nat) (resp : Option RouteParsed) : RouteAcc :=
  match resp with
  | none => acc
  | some p =>
    if p.is_script then
      { acc with
        isScriptDetected := true
        allCharacters := mergeCharacters acc.allCharacters p.characters
        allScenes := acc.allScenes ++ p.scenes }
    else if i = 0 then
      { acc with errorMessage := jsOrDefault p.error_message "台本形式ではありません" }
    else acc

/-- The whole chunk loop over the indexed responses. -/
def routeScan (resps : List (Option RouteParsed)) : RouteAcc :=
  resps.enum.foldl (fun a pr => routeStep a pr.1 pr.2) ⟨[], [], false, ""⟩

/-- `hasNarration` (line 394). -/
def narrationFlag (cs : List String) : Bool :=
  cs.any fun c => c == "N" || c == "ナレーション"

/-- One row of the route handler's `processedScenes` (lines 392–419). -/
def routeOutScene (roster : List String) (idx : Nat) (s : RouteScene) : SceneData :=
  let content :=
    if narrationFlag s.characters && !(jsIncludes s.content "※モノローグ") then
      s.content ++ " ※モノローグあり"
    else s.content
  { scene := jsOrStr s.scene (toString (idx + 1))
    location := s.location
    timeOfDay := s.timeOfDay
    content := content
    characters := presenceRow roster s.characters
    props := jsOrStr s.props ""
    notes := jsOrStr s.notes "" }

/-- Result of the route handler after the loop. -/
inductive RouteResult where
  | notScript (error_message : String)
  | ok (characters : List String) (scenes : List SceneData)
deriving DecidableEq, Repr

/-- The tail of the route handler's `POST` (lines 384–425). -/
def routePOST (resps : List (Option RouteParsed)) : RouteResult :=
  let acc := routeScan resps
  if acc.isScriptDetected then
    RouteResult.ok acc.allCharacters
      (acc.allScenes.enum.map fun pr => routeOutScene acc.allCharacters pr.1 pr.2)
  else
    RouteResult.notScript
      (jsOrStr acc.errorMessage "台本形式ではありません。映画・ドラマの台本をアップロードしてください。")

/-! ### Definitions following the spec's words (for the refinement
comparisons of C4 and C8; these are deliberately NOT translations of the
source) -/

/-- Follows the spec's words (§3 Character): two raw strings are the same
identity iff their canonical keys match — base name, extended by the age
when an age annotation is present on either side; so same base name and
same (possibly absent) age. -/
def specSameIdentity (a b : String) : Bool :=
  let ia := extractCharacterWithAge a
  let ib := extractCharacterWithAge b
  ia.name == ib.name && ia.age == ib.age

/-- Follows the spec's words (§4.5 Presence matrix): true iff some raw
scene character resolves to the roster entry via canonical key. -/
def specPresent (sceneChars : List String) (ch : String) : Bool :=
  sceneChars.any fun sc => specSameIdentity sc ch

/-- Lexicographic non-strict string order (for the spec's lexical
comparison). -/
def strLeB (a b : String) : Bool := !(strLtB b a)

/-- Follows the spec's words (§4.4 output order): scene numbers compare
numerically when the value parses as a number, lexically otherwise. -/
def specSnLe (a b : JVal) : Bool :=
  match a.toNumber, b.toNumber with
  | some x, some y => decide (x ≤ y)
  | _, _ => strLeB a.toStr b.toStr

/-- Follows the spec's words: episode ascending, then scene number per
`specSnLe`. -/
def specSceneLe (a b : MergedScene) : Bool :=
  if a.episode = b.episode then specSnLe a.scene_number b.scene_number
  else decide (a.episode < b.episode)

/-! ## Supporting lemmas -/

theorem ofNat_toNat_add32 (n : Nat) (h1 : 65 ≤ n) (h2 : n ≤ 90) :
    (Char.ofNat (n + 32)).toNat = n + 32 := by
  interval_cases n <;> decide

/-- `Char.toLower` neither moves a non-ASCII character nor maps anything
onto one. -/
theorem toLower_eq_iff (c k : Char) (hk : 127 < k.toNat) :
    Char.toLower c = k ↔ c = k := by
  constructor
  · intro h
    simp only [Char.toLower] at h
    split at h
    · rename_i hc
      exfalso
      have := congrArg Char.toNat h
      rw [ofNat_toNat_add32 c.toNat hc.1 hc.2] at this
      omega
    · exact h
  · intro h
    subst h
    unfold Char.toLower
    rw [if_neg]
    omega

theorem charsPrefixOf_map_toLower (p : List Char) (hp : ∀ c ∈ p, 127 < c.toNat) :
    ∀ l : List Char, charsPrefixOf p (l.map Char.toLower) = charsPrefixOf p l := by
  induction p with
  | nil => intro l; rfl
  | cons a as ih =>
    intro l
    cases l with
    | nil => rfl
    | cons b bs =>
      have ha : 127 < a.toNat := hp a (by simp)
      have hbeq : (a == Char.toLower b) = (a == b) := by
        rw [Bool.eq_iff_iff]
        simp only [beq_iff_eq]
        constructor
        · intro h
          exact ((toLower_eq_iff b a ha).mp h.symm).symm
        · intro h
          exact ((toLower_eq_iff b a ha).mpr h.symm).symm
      simp only [List.map_cons, charsPrefixOf, hbeq]
      rw [ih (fun c hc => hp c (by simp [hc]))]

theorem charsInfixOf_map_toLower (p : List Char) (hp : ∀ c ∈ p, 127 < c.toNat) :
    ∀ l : List Char, charsInfixOf p (l.map Char.toLower) = charsInfixOf p l := by
  intro l
  induction l with
  | nil => rfl
  | cons b bs ih =>
    simp only [List.map_cons, charsInfixOf]
    rw [ih]
    have := charsPrefixOf_map_toLower p hp (b :: bs)
    simp only [List.map_cons] at this
    rw [this]

/-- Lowercasing does not affect containment of the CJK keywords of
`determineDN`. -/
theorem jsIncludes_toLower (s kw : String) (hk : ∀ c ∈ kw.data, 127 < c.toNat) :
    jsIncludes (jsToLower s) kw = jsIncludes s kw := by
  unfold jsIncludes jsToLower
  exact charsInfixOf_map_toLower kw.data hk s.data

theorem nightHit_toLower (s : String) : nightHit (jsToLower s) = nightHit s := by
  unfold nightHit
  rw [jsIncludes_toLower s "夜" (by decide), jsIncludes_toLower s "深夜" (by decide)]

theorem dayHit_toLower (s : String) : dayHit (jsToLower s) = dayHit s := by
  unfold dayHit
  rw [jsIncludes_toLower s "朝" (by decide), jsIncludes_toLower s "昼" (by decide),
    jsIncludes_toLower s "夕" (by decide), jsIncludes_toLower s "夕方" (by decide),
    jsIncludes_toLower s "午前" (by decide), jsIncludes_toLower s "午後" (by decide)]

/-! ## C7 — time-of-day classification -/

/-- On nonempty input, `determineDN` is the keyword cascade on the raw
(unlowercased) string. -/
theorem determineDN_eq (s : String) (hs : s ≠ "") :
    determineDN s =
      if nightHit s = true then "N" else if dayHit s = true then "D" else "" := by
  unfold determineDN
  rw [if_neg hs]
  show (if nightHit (jsToLower s) = true then "N"
        else if dayHit (jsToLower s) = true then "D" else "") = _
  rw [nightHit_toLower, dayHit_toLower]

/-- C7: `determineDN` returns the night code whenever a night keyword
occurs (even when day keywords also occur), else the day code whenever a
day keyword occurs, else the empty code. -/
theorem determineDN_classifies (s : String) :
    (nightHit s = true → determineDN s = "N") ∧
    (nightHit s = false → dayHit s = true → determineDN s = "D") ∧
    (nightHit s = false → dayHit s = false → determineDN s = "") := by
  by_cases hs : s = ""
  · subst hs
    refine ⟨fun h => absurd h (by decide), fun _ h => absurd h (by decide), fun _ _ => rfl⟩
  · rw [determineDN_eq s hs]
    refine ⟨fun h => ?_, fun h1 h2 => ?_, fun h1 h2 => ?_⟩
    · rw [h]; rfl
    · rw [h1, h2]; rfl
    · rw [h1, h2]; rfl

/-- Witness for C7 at concrete inputs: "昼深夜" contains both a day and a
night keyword and classifies as night; "朝" classifies as day; "廊下" as
empty. -/
theorem determineDN_classifies_witness :
    determineDN "昼深夜" = "N" ∧ determineDN "朝" = "D" ∧ determineDN "廊下" = "" :=
  ⟨(determineDN_classifies "昼深夜").1 (by decide),
   (determineDN_classifies "朝").2.1 (by decide) (by decide),
   (determineDN_classifies "廊下").2.2 (by decide) (by decide)⟩

/-! ## C1 — the chunker never terminates when an overlap is configured -/

/-- Once the loop of `splitTextIntoChunks` is entered with any
`position < text.length` and `overlap ≥ 1`, it never exits: the new
position is `end - overlap ≤ length - 1`, so neither the `break` test
(`position >= text.length`) nor the loop guard can stop it. -/
theorem splitChunksGo_none (t : List Char) (cs ov : Int) (hov : 1 ≤ ov) :
    ∀ (fuel : Nat) (pos : Int) (acc : List (List Char)),
      pos < (t.length : Int) →
      splitChunksGo fuel t cs ov pos acc = none := by
  intro fuel
  induction fuel with
  | zero => intro pos acc _; rfl
  | succ n ih =>
    intro pos acc hpos
    have he : min (pos + cs) (t.length : Int) ≤ (t.length : Int) := min_le_right _ _
    have hlt : min (pos + cs) (t.length : Int) - ov < (t.length : Int) := by omega
    simp only [splitChunksGo, if_pos hpos, if_neg (by omega :
      ¬ min (pos + cs) (t.length : Int) - ov ≥ (t.length : Int))]
    exact ih _ _ hlt

/-- C1: for every nonempty text and every `overlapSize ≥ 1` (in particular
the app's own constants 6000/500), `splitTextIntoChunks` never returns,
whatever fuel it is given — the returned chunk sequence claimed by the
spec does not exist. -/
theorem splitTextIntoChunks_diverges (t : List Char) (cs ov : Int) (fuel : Nat)
    (ht : t ≠ []) (hov : 1 ≤ ov) :
    splitTextIntoChunks fuel t cs ov = none := by
  have hlen : 0 < t.length := List.length_pos.mpr ht
  exact splitChunksGo_none t cs ov hov fuel 0 [] (by exact_mod_cast hlen)

/-- Witness: the single-character text "a" with the app's constants
`CHUNK_SIZE = 6000`, `OVERLAP_SIZE = 500`. -/
theorem splitTextIntoChunks_diverges_witness :
    (['a'] : List Char) ≠ [] ∧ (1 : Int) ≤ 500 ∧
    splitTextIntoChunks 5 ['a'] 6000 500 = none :=
  ⟨by decide, by decide, splitTextIntoChunks_diverges ['a'] 6000 500 5 (by decide) (by decide)⟩

/-! ## Lemmas about the scenes map -/

theorem alookup_eq_none (k : String) (m : List (String × MergedScene)) :
    alookup k m = none ↔ k ∉ m.map Prod.fst := by
  induction m with
  | nil => simp [alookup]
  | cons e rest ih =>
    by_cases he : e.1 = k
    · simp only [alookup, if_pos he, List.map_cons, List.mem_cons]
      constructor
      · intro h
        cases h
      · intro h
        exact absurd (Or.inl he.symm) h
    · simp only [alookup, if_neg he, List.map_cons, List.mem_cons]
      rw [ih]
      constructor
      · intro h h2
        rcases h2 with h2 | h2
        · exact he h2.symm
        · exact h h2
      · intro h h2
        exact h (Or.inr h2)

theorem alookup_append_left (k : String) (m m2 : List (String × MergedScene))
    (t : MergedScene) (h : alookup k m = some t) :
    alookup k (m ++ m2) = some t := by
  induction m with
  | nil => simp [alookup] at h
  | cons e rest ih =>
    simp only [alookup, List.cons_append] at h ⊢
    by_cases he : e.1 = k
    · simpa [he] using h
    · rw [if_neg he] at h ⊢
      exact ih h

theorem alookup_append_right (k : String) (m m2 : List (String × MergedScene))
    (h : alookup k m = none) :
    alookup k (m ++ m2) = alookup k m2 := by
  induction m with
  | nil => rfl
  | cons e rest ih =>
    simp only [alookup, List.cons_append] at h ⊢
    by_cases he : e.1 = k
    · simp [he] at h
    · rw [if_neg he] at h ⊢
      exact ih h

theorem map_fst_areplace (k : String) (v : MergedScene)
    (m : List (String × MergedScene)) (h : alookup k m ≠ none) :
    (areplace k v m).map Prod.fst = m.map Prod.fst := by
  induction m with
  | nil => rfl
  | cons e rest ih =>
    simp only [areplace, alookup] at h ⊢
    by_cases he : e.1 = k
    · simp [he]
    · rw [if_neg he] at h ⊢
      simp [ih h]

theorem mem_areplace (k : String) (v : MergedScene) (m : List (String × MergedScene))
    (e : String × MergedScene) (h : e ∈ areplace k v m) :
    e = (k, v) ∨ e ∈ m := by
  induction m with
  | nil => simp [areplace] at h
  | cons e0 rest ih =>
    simp only [areplace] at h
    by_cases he : e0.1 = k
    · rw [if_pos he] at h
      rcases List.mem_cons.mp h with h | h
      · exact Or.inl h
      · exact Or.inr (List.mem_cons_of_mem _ h)
    · rw [if_neg he] at h
      rcases List.mem_cons.mp h with h | h
      · exact Or.inr (h ▸ List.mem_cons_self _ _)
      · rcases ih h with h | h
        · exact Or.inl h
        · exact Or.inr (List.mem_cons_of_mem _ h)

theorem alookup_areplace_same (k : String) (v : MergedScene)
    (m : List (String × MergedScene)) (h : alookup k m ≠ none) :
    alookup k (areplace k v m) = some v := by
  induction m with
  | nil => simp [alookup] at h
  | cons e rest ih =>
    simp only [alookup, areplace] at h ⊢
    by_cases he : e.1 = k
    · simp [he, alookup]
    · rw [if_neg he] at h
      rw [if_neg he]
      simp only [alookup, if_neg he]
      exact ih h

theorem alookup_areplace_other (k k2 : String) (v : MergedScene)
    (m : List (String × MergedScene)) (hk : k2 ≠ k) :
    alookup k2 (areplace k v m) = alookup k2 m := by
  induction m with
  | nil => rfl
  | cons e rest ih =>
    simp only [areplace]
    by_cases he : e.1 = k
    · rw [if_pos he]
      simp only [alookup]
      rw [if_neg (fun h : k = k2 => hk h.symm),
        if_neg (fun h : e.1 = k2 => hk (he.symm.trans h).symm)]
    · rw [if_neg he]
      simp only [alookup]
      by_cases h2 : e.1 = k2
      · rw [if_pos h2, if_pos h2]
      · rw [if_neg h2, if_neg h2, ih]

/-- Any key present before a merge step is still present afterwards, bound
to a value whose content is at least as long. -/
theorem alookup_step_mono (m : List (String × MergedScene)) (s : RawScene)
    (k : String) (t : MergedScene) (h : alookup k m = some t) :
    ∃ u, alookup k (sceneMapStep m s) = some u ∧
      t.content.length ≤ u.content.length := by
  unfold sceneMapStep
  cases h0 : alookup (rawKey s) m with
  | none => exact ⟨t, alookup_append_left k m _ t h, le_refl _⟩
  | some t0 =>
    dsimp only
    by_cases hlen : t0.content.length < s.content.length
    · rw [if_pos hlen]
      by_cases hk : k = rawKey s
      · subst hk
        rw [h0] at h
        cases h
        refine ⟨normScene s, alookup_areplace_same _ _ _ (by rw [h0]; simp), ?_⟩
        show t.content.length ≤ s.content.length
        rw [h0] at h0
        exact Nat.le_of_lt hlen
      · exact ⟨t, by rw [alookup_areplace_other _ _ _ _ hk]; exact h, le_refl _⟩
    · rw [if_neg hlen]
      exact ⟨t, h, le_refl _⟩

theorem alookup_foldl_mono (l : List RawScene) :
    ∀ (m : List (String × MergedScene)) (k : String) (t : MergedScene),
      alookup k m = some t →
      ∃ u, alookup k (l.foldl sceneMapStep m) = some u ∧
        t.content.length ≤ u.content.length := by
  induction l with
  | nil => exact fun m k t h => ⟨t, h, le_refl _⟩
  | cons a l ih =>
    intro m k t h
    obtain ⟨u, hu, hlen⟩ := alookup_step_mono m a k t h
    obtain ⟨w, hw, hlen2⟩ := ih (sceneMapStep m a) k u hu
    exact ⟨w, hw, le_trans hlen hlen2⟩

/-- After processing a list of raw scenes, every processed scene's key is
bound to a value at least as long as that scene's content. -/
theorem foldl_step_dominates (l : List RawScene) :
    ∀ (m : List (String × MergedScene)) (s : RawScene), s ∈ l →
      ∃ u, alookup (rawKey s) (l.foldl sceneMapStep m) = some u ∧
        s.content.length ≤ u.content.length := by
  induction l with
  | nil => intro m s h; simp at h
  | cons a l ih =>
    intro m s hs
    rcases List.mem_cons.mp hs with h | h
    · subst h
      have hstep : ∃ u, alookup (rawKey s) (sceneMapStep m s) = some u ∧
          s.content.length ≤ u.content.length := by
        unfold sceneMapStep
        cases h0 : alookup (rawKey s) m with
        | none =>
          refine ⟨normScene s, ?_, le_refl _⟩
          rw [alookup_append_right _ _ _ h0]
          simp [alookup]
        | some t0 =>
          dsimp only
          by_cases hlen : t0.content.length < s.content.length
          · rw [if_pos hlen]
            exact ⟨normScene s, alookup_areplace_same _ _ _ (by rw [h0]; simp), le_refl _⟩
          · rw [if_neg hlen]
            exact ⟨t0, h0, Nat.le_of_not_lt hlen⟩
      obtain ⟨u, hu, hlen⟩ := hstep
      obtain ⟨w, hw, hlen2⟩ := alookup_foldl_mono l (sceneMapStep m s) (rawKey s) u hu
      exact ⟨w, hw, le_trans hlen hlen2⟩
    · exact ih (sceneMapStep m a) s h

/-- Provenance: every entry of the built map is some processed raw scene,
normalized and keyed, taken wholesale. -/
theorem mem_foldl_step (l : List RawScene) :
    ∀ (m : List (String × MergedScene)) (e : String × MergedScene),
      e ∈ l.foldl sceneMapStep m →
      e ∈ m ∨ ∃ s ∈ l, e = (rawKey s, normScene s) := by
  induction l with
  | nil => exact fun m e h => Or.inl h
  | cons a l ih =>
    intro m e h
    rcases ih (sceneMapStep m a) e h with h | ⟨s, hs, he⟩
    · unfold sceneMapStep at h
      cases h0 : alookup (rawKey a) m with
      | none =>
        rw [h0] at h
        rcases List.mem_append.mp h with h | h
        · exact Or.inl h
        · exact Or.inr ⟨a, by simp, by simpa using h⟩
      | some t0 =>
        rw [h0] at h
        dsimp only at h
        by_cases hlen : t0.content.length < a.content.length
        · rw [if_pos hlen] at h
          rcases mem_areplace _ _ _ _ h with h | h
          · exact Or.inr ⟨a, by simp, h⟩
          · exact Or.inl h
        · rw [if_neg hlen] at h
          exact Or.inl h
    · exact Or.inr ⟨s, List.mem_cons_of_mem _ hs, he⟩

/-- The keys of the built map are pairwise distinct. -/
theorem keys_nodup_foldl_step (l : List RawScene) :
    ∀ (m : List (String × MergedScene)), (m.map Prod.fst).Nodup →
      ((l.foldl sceneMapStep m).map Prod.fst).Nodup := by
  induction l with
  | nil => exact fun m h => h
  | cons a l ih =>
    intro m hm
    apply ih
    unfold sceneMapStep
    cases h0 : alookup (rawKey a) m with
    | none =>
      rw [List.map_append]
      rw [List.nodup_append]
      refine ⟨hm, List.nodup_singleton _, ?_⟩
      intro x hx hx2
      simp only [List.map_cons, List.map_nil, List.mem_singleton] at hx2
      subst hx2
      exact ((alookup_eq_none _ m).mp h0) hx
    | some t0 =>
      dsimp only
      by_cases hlen : t0.content.length < a.content.length
      · rw [if_pos hlen, map_fst_areplace _ _ _ (by rw [h0]; simp)]
        exact hm
      · rw [if_neg hlen]
        exact hm

/-- The nested per-result loops equal one flat fold over all raw scenes. -/
theorem sceneMapOf_eq_flat (results : List ExtractionResult) :
    sceneMapOf results = (allRawScenes results).foldl sceneMapStep [] := by
  suffices h : ∀ (rs : List ExtractionResult) (m : List (String × MergedScene)),
      rs.foldl (fun m r => r.scenes.foldl sceneMapStep m) m =
        (allRawScenes rs).foldl sceneMapStep m by
    exact h results []
  intro rs
  induction rs with
  | nil => intro m; rfl
  | cons r rs ih =>
    intro m
    simp only [List.foldl_cons, allRawScenes, List.map_cons, List.flatten_cons,
      List.foldl_append]
    exact ih _

/-- `mkey` of a normalized scene is its map key. -/
theorem mkey_normScene (s : RawScene) : mkey (normScene s) = rawKey s := rfl

/-! ## Lemmas about the sorts -/

theorem insertScene_perm (x : MergedScene) (l : List MergedScene) :
    (insertScene x l).Perm (x :: l) := by
  induction l with
  | nil => exact List.Perm.refl _
  | cons y ys ih =>
    by_cases h : cmpScene y x ≤ 0
    · simp only [insertScene, if_pos h]
      exact (ih.cons y).trans (List.Perm.swap x y ys)
    · simp only [insertScene, if_neg h]
      exact List.Perm.refl _

theorem sortScenes_perm (l : List MergedScene) : (sortScenes l).Perm l := by
  suffices h : ∀ (l acc : List MergedScene),
      (l.foldl (fun acc x => insertScene x acc) acc).Perm (acc ++ l) by
    simpa using h l []
  intro l
  induction l with
  | nil => intro acc; simp
  | cons x l ih =>
    intro acc
    simp only [List.foldl_cons]
    refine (ih (insertScene x acc)).trans ?_
    refine (List.Perm.append_right l ((insertScene_perm x acc))).trans ?_
    exact List.perm_middle.symm

theorem mem_insertScene (z x : MergedScene) (l : List MergedScene) :
    z ∈ insertScene x l ↔ z = x ∨ z ∈ l := by
  rw [(insertScene_perm x l).mem_iff]
  simp

theorem insertStr_perm (x : String) (l : List String) :
    (insertStr x l).Perm (x :: l) := by
  induction l with
  | nil => exact List.Perm.refl _
  | cons y ys ih =>
    by_cases h : strLtB x y = true
    · simp only [insertStr, if_pos h]
      exact List.Perm.refl _
    · simp only [insertStr, if_neg h]
      exact (ih.cons y).trans (List.Perm.swap x y ys)

theorem sortStrings_perm (l : List String) : (sortStrings l).Perm l := by
  suffices h : ∀ (l acc : List String),
      (l.foldl (fun acc x => insertStr x acc) acc).Perm (acc ++ l) by
    simpa using h l []
  intro l
  induction l with
  | nil => intro acc; simp
  | cons x l ih =>
    intro acc
    simp only [List.foldl_cons]
    refine (ih (insertStr x acc)).trans ?_
    refine (List.Perm.append_right l ((insertStr_perm x acc))).trans ?_
    exact List.perm_middle.symm

/-! ## Lemmas about the character set -/

theorem addToSet_nodup (acc : List String) (c : String) (h : acc.Nodup) :
    (addToSet acc c).Nodup := by
  unfold addToSet
  by_cases hc : acc.contains c = true
  · rw [if_pos hc]
    exact h
  · rw [if_neg hc]
    rw [List.nodup_append]
    refine ⟨h, List.nodup_singleton _, ?_⟩
    intro x hx hx2
    simp only [List.mem_singleton] at hx2
    subst hx2
    exact hc (List.elem_iff.mpr hx)

theorem mem_addToSet (acc : List String) (c x : String) :
    x ∈ addToSet acc c ↔ x = c ∨ x ∈ acc := by
  unfold addToSet
  by_cases hc : acc.contains c = true
  · rw [if_pos hc]
    constructor
    · exact Or.inr
    · intro h
      rcases h with h | h
      · exact h ▸ List.elem_iff.mp hc
      · exact h
  · rw [if_neg hc]
    simp [List.mem_append, or_comm]

theorem addToSet_of_mem (acc : List String) (c : String) (h : c ∈ acc) :
    addToSet acc c = acc := by
  unfold addToSet
  rw [if_pos (List.elem_iff.mpr h)]

theorem foldl_addToSet_nodup (l : List String) :
    ∀ acc : List String, acc.Nodup → (l.foldl addToSet acc).Nodup := by
  induction l with
  | nil => exact fun acc h => h
  | cons c l ih => exact fun acc h => ih _ (addToSet_nodup acc c h)

theorem subset_foldl_addToSet (l : List String) :
    ∀ (acc : List String) (x : String), x ∈ acc → x ∈ l.foldl addToSet acc := by
  induction l with
  | nil => exact fun acc x h => h
  | cons c l ih =>
    intro acc x h
    exact ih _ x ((mem_addToSet acc c x).mpr (Or.inr h))

theorem mem_foldl_addToSet (l : List String) :
    ∀ (acc : List String) (x : String), x ∈ l → x ∈ l.foldl addToSet acc := by
  induction l with
  | nil => intro acc x h; simp at h
  | cons c l ih =>
    intro acc x h
    rcases List.mem_cons.mp h with h | h
    · subst h
      exact subset_foldl_addToSet l _ _ ((mem_addToSet acc _ _).mpr (Or.inl rfl))
    · exact ih _ x h

theorem foldl_addToSet_id (l : List String) :
    ∀ acc : List String, (∀ c ∈ l, c ∈ acc) → l.foldl addToSet acc = acc := by
  induction l with
  | nil => intro acc _; rfl
  | cons c l ih =>
    intro acc h
    simp only [List.foldl_cons]
    rw [addToSet_of_mem acc c (h c (by simp))]
    exact ih acc fun x hx => h x (List.mem_cons_of_mem _ hx)

/-- The nested character loops equal one flat fold. -/
theorem allCharsOf_eq_flat (results : List ExtractionResult) :
    allCharsOf results =
      ((results.map ExtractionResult.characters).flatten).foldl addToSet [] := by
  suffices h : ∀ (rs : List ExtractionResult) (acc : List String),
      rs.foldl (fun acc r => r.characters.foldl addToSet acc) acc =
        ((rs.map ExtractionResult.characters).flatten).foldl addToSet acc by
    exact h results []
  intro rs
  induction rs with
  | nil => intro acc; rfl
  | cons r rs ih =>
    intro acc
    simp only [List.foldl_cons, List.map_cons, List.flatten_cons, List.foldl_append]
    exact ih _

theorem allCharsOf_nodup (results : List ExtractionResult) :
    (allCharsOf results).Nodup := by
  rw [allCharsOf_eq_flat]
  exact foldl_addToSet_nodup _ [] List.nodup_nil

theorem charactersOf_nodup (results : List ExtractionResult) :
    (charactersOf results).Nodup := by
  unfold charactersOf
  exact (sortStrings_perm _).nodup_iff.mpr (allCharsOf_nodup results)

theorem allCharsOf_idem (rs : List ExtractionResult) :
    allCharsOf (rs ++ rs) = allCharsOf rs := by
  rw [allCharsOf_eq_flat, allCharsOf_eq_flat rs]
  rw [List.map_append, List.flatten_append, List.foldl_append]
  exact foldl_addToSet_id _ _ fun c hc => mem_foldl_addToSet _ [] c hc

/-! ## Idempotence of the scenes map -/

theorem foldl_step_id (l : List RawScene) :
    ∀ m : List (String × MergedScene),
      (∀ s ∈ l, ∃ t, alookup (rawKey s) m = some t ∧
        s.content.length ≤ t.content.length) →
      l.foldl sceneMapStep m = m := by
  induction l with
  | nil => intro m _; rfl
  | cons a l ih =>
    intro m h
    obtain ⟨t, ht, hlen⟩ := h a (by simp)
    have hstep : sceneMapStep m a = m := by
      unfold sceneMapStep
      rw [ht]
      dsimp only
      rw [if_neg (Nat.not_lt.mpr hlen)]
    rw [List.foldl_cons, hstep]
    exact ih m fun s hs => h s (List.mem_cons_of_mem _ hs)

theorem allRawScenes_append (rs1 rs2 : List ExtractionResult) :
    allRawScenes (rs1 ++ rs2) = allRawScenes rs1 ++ allRawScenes rs2 := by
  unfold allRawScenes
  rw [List.map_append, List.flatten_append]

theorem sceneMapOf_idem (rs : List ExtractionResult) :
    sceneMapOf (rs ++ rs) = sceneMapOf rs := by
  rw [sceneMapOf_eq_flat, sceneMapOf_eq_flat rs, allRawScenes_append, List.foldl_append]
  exact foldl_step_id _ _ fun s hs => foldl_step_dominates (allRawScenes rs) [] s hs

/-! ## C9 — merger idempotence -/

/-- C9: merging the same result list presented twice yields exactly the
same merged table as merging it once: same roster, same scene list, no
duplicate accumulation. -/
theorem mergeResults_idempotent (rs : List ExtractionResult) :
    mergeResults (rs ++ rs) = mergeResults rs := by
  have h1 : charactersOf (rs ++ rs) = charactersOf rs := by
    unfold charactersOf
    rw [allCharsOf_idem]
  have h2 : sortedScenes (rs ++ rs) = sortedScenes rs := by
    unfold sortedScenes dedupScenes
    rw [sceneMapOf_idem]
  unfold mergeResults
  rw [h1, h2]

/-! ## Structure of the deduplicated scene list -/

theorem sceneMap_entry_eq (rs : List ExtractionResult) (e : String × MergedScene)
    (he : e ∈ sceneMapOf rs) :
    ∃ s ∈ allRawScenes rs, e = (rawKey s, normScene s) := by
  rw [sceneMapOf_eq_flat] at he
  rcases mem_foldl_step (allRawScenes rs) [] e he with h | h
  · simp at h
  · exact h

theorem sceneMap_keys_nodup (rs : List ExtractionResult) :
    ((sceneMapOf rs).map Prod.fst).Nodup := by
  rw [sceneMapOf_eq_flat]
  exact keys_nodup_foldl_step (allRawScenes rs) [] (by simp)

theorem alookup_of_mem (m : List (String × MergedScene))
    (hnd : (m.map Prod.fst).Nodup) (e : String × MergedScene) (he : e ∈ m) :
    alookup e.1 m = some e.2 := by
  induction m with
  | nil => simp at he
  | cons e0 rest ih =>
    rcases List.mem_cons.mp he with h | h
    · subst h
      simp [alookup]
    · have hne : e0.1 ≠ e.1 := by
        intro hcontra
        have : e.1 ∈ rest.map Prod.fst := List.mem_map.mpr ⟨e, h, rfl⟩
        rw [List.map_cons] at hnd
        exact (List.nodup_cons.mp hnd).1 (hcontra ▸ this)
      simp only [alookup, if_neg hne]
      exact ih (List.nodup_cons.mp (by rw [List.map_cons] at hnd; exact hnd)).2 h

theorem dedup_pairwise_keys (rs : List ExtractionResult) :
    (dedupScenes rs).Pairwise fun a b => mkey a ≠ mkey b := by
  have hnd := sceneMap_keys_nodup rs
  have h1 : (sceneMapOf rs).Pairwise fun e1 e2 => e1.1 ≠ e2.1 :=
    List.pairwise_map.mp hnd
  have h2 : (sceneMapOf rs).Pairwise fun e1 e2 => mkey e1.2 ≠ mkey e2.2 := by
    refine h1.imp_of_mem ?_
    intro a b ha hb hne
    obtain ⟨sa, _, hea⟩ := sceneMap_entry_eq rs a ha
    obtain ⟨sb, _, heb⟩ := sceneMap_entry_eq rs b hb
    rw [hea, heb] at hne ⊢
    simpa [mkey_normScene] using hne
  exact List.pairwise_map.mpr h2

theorem dedup_provenance (rs : List ExtractionResult) (e : MergedScene)
    (he : e ∈ dedupScenes rs) : ∃ s ∈ allRawScenes rs, e = normScene s := by
  unfold dedupScenes at he
  obtain ⟨en, hen, hsnd⟩ := List.mem_map.mp he
  obtain ⟨s, hs, heq⟩ := sceneMap_entry_eq rs en hen
  exact ⟨s, hs, by rw [← hsnd, heq]⟩

theorem dedup_dominates (rs : List ExtractionResult) (s : RawScene)
    (hs : s ∈ allRawScenes rs) (e : MergedScene) (he : e ∈ dedupScenes rs)
    (hkey : mkey e = rawKey s) : s.content.length ≤ e.content.length := by
  unfold dedupScenes at he
  obtain ⟨en, hen, hsnd⟩ := List.mem_map.mp he
  have hk1 : en.1 = mkey en.2 := by
    obtain ⟨s2, _, heq⟩ := sceneMap_entry_eq rs en hen
    rw [heq, mkey_normScene]
  have hlook : alookup en.1 (sceneMapOf rs) = some en.2 :=
    alookup_of_mem _ (sceneMap_keys_nodup rs) en hen
  obtain ⟨u, hu, hlen⟩ := foldl_step_dominates (allRawScenes rs) [] s hs
  rw [← sceneMapOf_eq_flat] at hu
  have hkeq : en.1 = rawKey s := by rw [hk1, hsnd, hkey]
  rw [hkeq] at hlook
  rw [hlook] at hu
  have : en.2 = u := Option.some_inj.mp hu
  rw [← hsnd, this]
  exact hlen

/-! ## C2 — scene dedup by identity key, longest content wins -/

/-- The 11-character content variant of the spec's concrete dedup example,
keyed (episode 1, scene 1). -/
def shortScene : RawScene :=
  { episode := some 1
    scene_number := JVal.num 1
    scene := JVal.undef
    location := "公園"
    timeOfDay := "昼"
    content := "abcdefghijk"
    characters := ["A"]
    props := ""
    notes := "" }

/-- The 49-character content variant with the same identity key. -/
def longScene : RawScene :=
  { shortScene with
    content := "0123456789012345678901234567890123456789012345678"
    characters := ["B"]
    props := "ナイフ" }

/-- C2: in the merged output (i) no two scenes share an identity key
(episode, scene_number); (ii) whenever an input scene and an output scene
share a key, the output content is at least as long; (iii) every output
scene is one of the input variants; and in particular merging the
11-character and 49-character variants sharing key (1,1) yields exactly
the 49-character variant. -/
theorem mergeScenes_dedup_longest (rs : List ExtractionResult) :
    ((sortedScenes rs).Pairwise fun a b =>
      ¬(a.episode = b.episode ∧ a.scene_number = b.scene_number)) ∧
    (∀ s ∈ allRawScenes rs, ∀ e ∈ sortedScenes rs,
      e.episode = epOf s → e.scene_number = snOf s →
      s.content.length ≤ e.content.length) ∧
    (∀ e ∈ sortedScenes rs, ∃ s ∈ allRawScenes rs, e = normScene s) ∧
    sortedScenes [⟨[], [shortScene, longScene]⟩] = [normScene longScene] := by
  refine ⟨?_, ?_, ?_, by decide⟩
  · have hsym : ∀ {x y : MergedScene},
        (¬(x.episode = y.episode ∧ x.scene_number = y.scene_number)) →
        ¬(y.episode = x.episode ∧ y.scene_number = x.scene_number) :=
      fun h hc => h ⟨hc.1.symm, hc.2.symm⟩
    refine (List.Perm.pairwise_iff hsym (sortScenes_perm (dedupScenes rs))).mpr ?_
    refine (dedup_pairwise_keys rs).imp ?_
    intro a b h hc
    exact h (by unfold mkey; rw [hc.1, hc.2])
  · intro s hs e he hep hsn
    have he2 : e ∈ dedupScenes rs := (sortScenes_perm _).mem_iff.mp he
    refine dedup_dominates rs s hs e he2 ?_
    unfold mkey rawKey
    rw [hep, hsn]
  · intro e he
    exact dedup_provenance rs e ((sortScenes_perm _).mem_iff.mp he)

/-- Witness for C2: in the concrete two-variant merge, the short variant's
content is dominated by the kept scene. -/
theorem mergeScenes_dedup_longest_witness :
    shortScene.content.length ≤ (normScene longScene).content.length :=
  (mergeScenes_dedup_longest [⟨[], [shortScene, longScene]⟩]).2.1
    shortScene (by decide) (normScene longScene) (by decide) rfl rfl

/-! ## C10 — replace semantics on key collision -/

/-- First-encountered tie variant (content length 3). -/
def tieSceneA : RawScene :=
  { episode := some 1
    scene_number := JVal.num 2
    scene := JVal.undef
    location := "教室"
    timeOfDay := "朝"
    content := "abc"
    characters := ["X"]
    props := "px"
    notes := "nx" }

/-- Second tie variant: same key, same content length, entirely different
characters, props and notes. -/
def tieSceneB : RawScene :=
  { tieSceneA with
    content := "def"
    characters := ["Y"]
    props := "py"
    notes := "ny" }

/-- C10: the kept scene on a key collision is a losing-variant-free copy of
one single input variant (replace semantics: its characters, props and
notes are taken wholesale, never unioned), and on an equal-length tie the
first-encountered variant is kept. -/
theorem mergeScenes_replace_semantics (rs : List ExtractionResult) :
    (∀ e ∈ sortedScenes rs, ∃ s ∈ allRawScenes rs,
      e = normScene s ∧ e.characters = s.characters ∧
      e.props = s.props ∧ e.notes = s.notes) ∧
    sortedScenes [⟨[], [tieSceneA, tieSceneB]⟩] = [normScene tieSceneA] := by
  refine ⟨?_, by decide⟩
  intro e he
  obtain ⟨s, hs, heq⟩ := dedup_provenance rs e ((sortScenes_perm _).mem_iff.mp he)
  exact ⟨s, hs, heq, by rw [heq]; rfl, by rw [heq]; rfl, by rw [heq]; rfl⟩

/-- Witness for C10: the tie-break output is a wholesale copy of the first
variant. -/
theorem mergeScenes_replace_semantics_witness :
    ∃ s ∈ allRawScenes [⟨[], [tieSceneA, tieSceneB]⟩],
      normScene tieSceneA = normScene s ∧
      (normScene tieSceneA).characters = s.characters ∧
      (normScene tieSceneA).props = s.props ∧
      (normScene tieSceneA).notes = s.notes :=
  (mergeScenes_replace_semantics [⟨[], [tieSceneA, tieSceneB]⟩]).1
    (normScene tieSceneA) (by decide)

/-! ## C3 — presence-map completeness -/

theorem foldl_append_build {α β : Type} (f : α → β) (l : List α) :
    ∀ acc : List β, l.foldl (fun acc ch => acc ++ [f ch]) acc = acc ++ l.map f := by
  induction l with
  | nil => intro acc; simp
  | cons c l ih =>
    intro acc
    simp only [List.foldl_cons, List.map_cons, ih]
    simp

theorem presenceRow_eq_map (roster sceneChars : List String) :
    presenceRow roster sceneChars =
      roster.map fun ch => (ch, rawPresent sceneChars ch) := by
  unfold presenceRow
  simpa using foldl_append_build (fun ch => (ch, rawPresent sceneChars ch)) roster []

theorem presenceRow_map_fst (roster sceneChars : List String) :
    (presenceRow roster sceneChars).map Prod.fst = roster := by
  rw [presenceRow_eq_map, List.map_map]
  exact List.map_id roster

theorem mergeCharStep_nodup (acc : List String) (c : String) (h : acc.Nodup) :
    (mergeCharStep acc c).Nodup := by
  cases h2 : (extractCharacterWithAge c).age with
  | none =>
    simp only [mergeCharStep, h2]
    exact addToSet_nodup _ _ h
  | some a =>
    simp only [mergeCharStep, h2]
    exact addToSet_nodup _ _ h

theorem mergeCharacters_nodup (ex new : List String) :
    (mergeCharacters ex new).Nodup := by
  unfold mergeCharacters
  apply (sortStrings_perm _).nodup_iff.mpr
  have hbase : (ex.foldl addToSet []).Nodup := foldl_addToSet_nodup ex [] List.nodup_nil
  have h : ∀ (l : List String) (acc : List String), acc.Nodup →
      (l.foldl mergeCharStep acc).Nodup := by
    intro l
    induction l with
    | nil => exact fun acc h => h
    | cons c l ih =>
      intro acc h
      exact ih _ (mergeCharStep_nodup acc c h)
  exact h new _ hbase

theorem routeStep_chars_nodup (acc : RouteAcc) (i : Nat) (resp : Option RouteParsed)
    (h : acc.allCharacters.Nodup) : (routeStep acc i resp).allCharacters.Nodup := by
  unfold routeStep
  cases resp with
  | none => exact h
  | some p =>
    by_cases hscript : p.is_script = true
    · simp only [hscript, if_true]
      exact mergeCharacters_nodup _ _
    · simp only [hscript, if_false]
      by_cases hi : i = 0
      · simp only [hi, if_true]
        exact h
      · simp only [hi, if_false]
        exact h

theorem routeScan_chars_nodup (resps : List (Option RouteParsed)) :
    (routeScan resps).allCharacters.Nodup := by
  unfold routeScan
  have h : ∀ (l : List (Nat × Option RouteParsed)) (acc : RouteAcc),
      acc.allCharacters.Nodup →
      (l.foldl (fun a pr => routeStep a pr.1 pr.2) acc).allCharacters.Nodup := by
    intro l
    induction l with
    | nil => exact fun acc h => h
    | cons pr l ih =>
      intro acc h
      exact ih _ (routeStep_chars_nodup acc pr.1 pr.2 h)
  exact h _ _ List.nodup_nil

theorem routePOST_ok_inv (resps : List (Option RouteParsed))
    (chars : List String) (scenes : List SceneData)
    (h : routePOST resps = RouteResult.ok chars scenes) :
    chars = (routeScan resps).allCharacters ∧
    scenes = (routeScan resps).allScenes.enum.map
      fun pr => routeOutScene (routeScan resps).allCharacters pr.1 pr.2 := by
  unfold routePOST at h
  by_cases hd : (routeScan resps).isScriptDetected = true
  · rw [if_pos hd] at h
    injection h with h1 h2
    exact ⟨h1.symm, h2.symm⟩
  · rw [if_neg hd] at h
    exact RouteResult.noConfusion h

/-- C3: in every merged table of the client pipeline the roster is
duplicate-free and every scene row's presence map has exactly one Boolean
entry per roster character, in roster order, with no extra entries; and
the same holds for every successful result of the chunked route handler. -/
theorem presence_matrix_complete (rs : List ExtractionResult) :
    (mergeResults rs).characters.Nodup ∧
    (∀ sd ∈ (mergeResults rs).scenes,
      sd.characters.map Prod.fst = (mergeResults rs).characters) ∧
    (∀ (resps : List (Option RouteParsed)) (chars : List String)
        (scenes : List SceneData), routePOST resps = RouteResult.ok chars scenes →
      chars.Nodup ∧ ∀ sd ∈ scenes, sd.characters.map Prod.fst = chars) := by
  refine ⟨charactersOf_nodup rs, ?_, ?_⟩
  · intro sd hsd
    obtain ⟨m, _, hm⟩ := List.mem_map.mp hsd
    rw [← hm]
    show (presenceRow (charactersOf rs) m.characters).map Prod.fst = charactersOf rs
    exact presenceRow_map_fst _ _
  · intro resps chars scenes h
    obtain ⟨h1, h2⟩ := routePOST_ok_inv resps chars scenes h
    refine ⟨h1 ▸ routeScan_chars_nodup resps, ?_⟩
    intro sd hsd
    rw [h2] at hsd
    obtain ⟨pr, _, hpr⟩ := List.mem_map.mp hsd
    rw [← hpr, h1]
    show (presenceRow (routeScan resps).allCharacters pr.2.characters).map Prod.fst = _
    exact presenceRow_map_fst _ _

/-- Witness for C3's route-handler part at a concrete successful run. -/
theorem presence_matrix_complete_witness :
    (routePOST [some ⟨true, none, ["A"],
        [⟨"1", "L", "D", "c", ["A"], "", ""⟩]⟩] =
      RouteResult.ok ["A"] [⟨"1", "L", "D", "c", [("A", true)], "", ""⟩]) ∧
    (["A"] : List String).Nodup :=
  ⟨by decide,
   ((presence_matrix_complete []).2.2 [some ⟨true, none, ["A"],
      [⟨"1", "L", "D", "c", ["A"], "", ""⟩]⟩] ["A"]
      [⟨"1", "L", "D", "c", [("A", true)], "", ""⟩] (by decide)).1⟩

/-! ## C4 — presence resolution ignores age annotations -/

/-- Counterexample to C4 as stated: a scene listing only "Tanaka(25)"
marks the distinct roster identity "Tanaka(13)" as present, although
their canonical keys (base name + age) differ. -/
theorem presence_canonical_key_cex :
    rawPresent ["Tanaka(25)"] "Tanaka(13)" = true ∧
    specPresent ["Tanaka(25)"] "Tanaka(13)" = false := by
  exact ⟨by decide, by decide⟩

/-- C4 (amended): the presence flag for a roster character is true iff
some raw scene character equals it verbatim or has the same base name
after stripping any age annotation — age annotations are ignored by the
comparison. -/
theorem presence_base_name_match (m : MergedScene) (roster : List String)
    (ch : String) (hch : ch ∈ roster) :
    ((ch, rawPresent m.characters ch) ∈ (toSceneData roster m).characters) ∧
    (rawPresent m.characters ch = true ↔ ∃ sc ∈ m.characters, sc = ch ∨
      (extractCharacterWithAge sc).name = (extractCharacterWithAge ch).name) := by
  constructor
  · show _ ∈ presenceRow roster m.characters
    rw [presenceRow_eq_map]
    exact List.mem_map.mpr ⟨ch, hch, rfl⟩
  · unfold rawPresent
    rw [List.any_eq_true]
    constructor
    · rintro ⟨sc, hsc, hp⟩
      refine ⟨sc, hsc, ?_⟩
      rcases Bool.or_eq_true_iff.mp hp with h | h
      · exact Or.inl (by simpa using h)
      · exact Or.inr (by simpa using h)
    · rintro ⟨sc, hsc, hp⟩
      refine ⟨sc, hsc, Bool.or_eq_true_iff.mpr ?_⟩
      rcases hp with h | h
      · exact Or.inl (by simpa using h)
      · exact Or.inr (by simpa using h)

/-- Witness for C4's amended statement at a concrete scene and roster. -/
theorem presence_base_name_match_witness :
    ("X" ∈ (["X"] : List String)) ∧
    ("X", rawPresent (normScene tieSceneA).characters "X") ∈
      (toSceneData ["X"] (normScene tieSceneA)).characters :=
  ⟨by decide, (presence_base_name_match (normScene tieSceneA) ["X"] "X" (by decide)).1⟩

/-! ## C5 — aggregate failure iff zero chunks succeed -/

/-- The orchestrator tail is literally a test on the successful results. -/
theorem performDetailedExtraction_eq (bs : List (List AttemptResp)) :
    performDetailedExtraction bs =
      if bs.filterMap processChunkWithRetry = [] then
        Except.error "全てのセクションの処理に失敗しました。"
      else Except.ok (mergeResults (bs.filterMap processChunkWithRetry)) := rfl

/-- C5: the orchestrator raises the aggregate failure iff no chunk
succeeded; with at least one success it returns the (possibly partial)
merged table of exactly the successful chunks; and a chunk fails precisely
when none of its first `MAX_RETRIES` attempts is a successful is_script
reply. -/
theorem orchestrator_failure_iff (bs : List (List AttemptResp)) :
    (performDetailedExtraction bs =
        Except.error "全てのセクションの処理に失敗しました。" ↔
      bs.filterMap processChunkWithRetry = []) ∧
    (bs.filterMap processChunkWithRetry ≠ [] →
      performDetailedExtraction bs =
        Except.ok (mergeResults (bs.filterMap processChunkWithRetry))) ∧
    (∀ attempts : List AttemptResp, processChunkWithRetry attempts = none ↔
      ∀ a ∈ attempts.take MAX_RETRIES, attemptSuccess a = none) := by
  refine ⟨?_, ?_, ?_⟩
  · rw [performDetailedExtraction_eq]
    by_cases h : bs.filterMap processChunkWithRetry = []
    · simp [h]
    · simp [h]
  · intro h
    rw [performDetailedExtraction_eq, if_neg h]
  · intro attempts
    unfold processChunkWithRetry
    exact List.findSome?_eq_none_iff

/-- Witness for C5: one chunk whose single attempt succeeds yields the
merged table of that chunk. -/
theorem orchestrator_failure_iff_witness :
    performDetailedExtraction
        [[AttemptResp.reply ⟨true, none, ["A"], [shortScene]⟩]] =
      Except.ok (mergeResults
        (([[AttemptResp.reply ⟨true, none, ["A"], [shortScene]⟩]]).filterMap
          processChunkWithRetry)) :=
  (orchestrator_failure_iff
    [[AttemptResp.reply ⟨true, none, ["A"], [shortScene]⟩]]).2.1 (by decide)

/-! ## C6 — gating vs. soft skip of not-a-script classifications -/

/-- An attempt whose reply was classified not-a-script. -/
def notScriptAttempt : AttemptResp → Bool
  | .reply r => !r.is_script
  | .httpError _ => false

/-- Is a per-chunk route response classified as a script? -/
def respIsScript : Option RouteParsed → Bool
  | some p => p.is_script
  | none => false

theorem processChunk_none_of_notScript (attempts : List AttemptResp)
    (h : ∀ a ∈ attempts, notScriptAttempt a = true) :
    processChunkWithRetry attempts = none := by
  unfold processChunkWithRetry
  rw [List.findSome?_eq_none_iff]
  intro a ha
  have hns := h a (List.take_subset _ _ ha)
  cases a with
  | httpError msg => rfl
  | reply r =>
    have : r.is_script = false := by
      simpa [notScriptAttempt] using hns
    simp [attemptSuccess, this]

theorem filterMap_eraseIdx_none {α β : Type} (f : α → Option β) :
    ∀ (l : List α) (i : Nat) (hi : i < l.length), f (l.get ⟨i, hi⟩) = none →
      (l.eraseIdx i).filterMap f = l.filterMap f := by
  intro l
  induction l with
  | nil => intro i hi; simp at hi
  | cons a l ih =>
    intro i hi hf
    cases i with
    | zero =>
      rw [List.eraseIdx_cons_zero, List.filterMap_cons]
      have : f a = none := hf
      rw [this]
    | succ n =>
      have hi2 : n < l.length := by simpa using hi
      have hf2 : f (l.get ⟨n, hi2⟩) = none := hf
      rw [List.eraseIdx_cons_succ, List.filterMap_cons, List.filterMap_cons]
      cases hfa : f a
      · exact ih n hi2 hf2
      · rw [ih n hi2 hf2]

theorem routeStep_detected (acc : RouteAcc) (i : Nat) (resp : Option RouteParsed) :
    (routeStep acc i resp).isScriptDetected =
      (acc.isScriptDetected || respIsScript resp) := by
  cases resp with
  | none => simp [routeStep, respIsScript]
  | some p =>
    by_cases h : p.is_script = true
    · simp [routeStep, respIsScript, h]
    · by_cases hi : i = 0
      · simp [routeStep, respIsScript, h, hi]
      · simp [routeStep, respIsScript, h, hi]

theorem routeScan_detected (resps : List (Option RouteParsed)) :
    (routeScan resps).isScriptDetected = resps.any respIsScript := by
  unfold routeScan
  have h : ∀ (l : List (Nat × Option RouteParsed)) (acc : RouteAcc),
      (l.foldl (fun a pr => routeStep a pr.1 pr.2) acc).isScriptDetected =
        (acc.isScriptDetected || l.any fun pr => respIsScript pr.2) := by
    intro l
    induction l with
    | nil => intro acc; simp
    | cons pr l ih =>
      intro acc
      simp only [List.foldl_cons, List.any_cons]
      rw [ih, routeStep_detected, Bool.or_assoc]
  rw [h]
  simp only [Bool.false_or]
  have h2 : ∀ l : List (Nat × Option RouteParsed),
      (l.any fun pr => respIsScript pr.2) = (l.map Prod.snd).any respIsScript := by
    intro l
    induction l with
    | nil => rfl
    | cons a l ih => simp [List.any_cons, ih]
  rw [h2, List.enum_map_snd]

/-- C6 (amended): a not-a-script prescan aborts the client pipeline with
its message no matter what the chunks would have returned; a chunk whose
attempts are all classified not-a-script — the first chunk included — is a
soft skip contributing nothing (the pipeline result is as if the chunk
were absent); and the chunked route handler reports a classification
failure iff no chunk at all was classified as a script, so a not-a-script
first chunk alone does not abort it. -/
theorem notScript_gating (pre : PrescanReply) (bs : List (List AttemptResp)) :
    (pre.is_script = false →
      clientPipeline pre bs =
        Except.error (jsOrDefault pre.error_message "台本形式ではありません")) ∧
    (∀ (i : Nat) (hi : i < bs.length),
      (∀ a ∈ bs.get ⟨i, hi⟩, notScriptAttempt a = true) →
      clientPipeline pre bs = clientPipeline pre (bs.eraseIdx i)) ∧
    (∀ resps : List (Option RouteParsed),
      (∃ msg, routePOST resps = RouteResult.notScript msg) ↔
        resps.any respIsScript = false) := by
  refine ⟨?_, ?_, ?_⟩
  · intro h
    unfold clientPipeline
    rw [if_neg (by rw [h]; exact Bool.false_ne_true)]
  · intro i hi hns
    have hnone : processChunkWithRetry (bs.get ⟨i, hi⟩) = none :=
      processChunk_none_of_notScript _ hns
    unfold clientPipeline
    by_cases hp : pre.is_script = true
    · rw [if_pos hp, if_pos hp]
      rw [performDetailedExtraction_eq, performDetailedExtraction_eq]
      rw [filterMap_eraseIdx_none processChunkWithRetry bs i hi hnone]
    · rw [if_neg hp, if_neg hp]
  · intro resps
    constructor
    · rintro ⟨msg, hmsg⟩
      by_contra hany
      have hany2 : resps.any respIsScript = true := by
        cases h2 : resps.any respIsScript
        · exact absurd h2 hany
        · rfl
      unfold routePOST at hmsg
      rw [if_pos (by rw [routeScan_detected, hany2])] at hmsg
      exact RouteResult.noConfusion hmsg
    · intro hany
      unfold routePOST
      rw [if_neg (by rw [routeScan_detected, hany]; exact Bool.false_ne_true)]
      exact ⟨_, rfl⟩

/-- A response classified not-a-script, carrying an error message. -/
def notScriptParsed : RouteParsed :=
  { is_script := false
    error_message := some "台本ではない"
    characters := []
    scenes := [] }

/-- A later response classified as a script. -/
def scriptParsed : RouteParsed :=
  { is_script := true
    error_message := none
    characters := ["B"]
    scenes := [⟨"2", "場所", "N", "内容", ["B"], "", ""⟩] }

/-- Counterexample to C6 as stated: the route handler's very first chunk
is classified not-a-script, yet the pipeline is not aborted — the second
chunk is still processed and a successful table is returned from it. -/
theorem firstChunk_notScript_soft_cex :
    routePOST [some notScriptParsed, some scriptParsed] =
      RouteResult.ok ["B"] [⟨"2", "場所", "N", "内容", [("B", true)], "", ""⟩] := by
  decide

/-- Witness for C6 at a concrete not-a-script prescan. -/
theorem notScript_gating_witness :
    clientPipeline ⟨false, some "台本ではない", []⟩ [] =
      Except.error "台本ではない" :=
  (notScript_gating ⟨false, some "台本ではない", []⟩ []).1 rfl

/-! ## C8 — output order of the merged scenes -/

/-- Does the scene number coerce to a number (`ToNumber` does not yield
`NaN`)? -/
def numOk (m : MergedScene) : Bool := m.scene_number.toNumber.isSome

/-- Episode ascending, then numeric scene-number ascending (`getD 0`
supplies a junk value that is only relevant off the `numOk` domain). -/
def ordLe (a b : MergedScene) : Prop :=
  a.episode < b.episode ∨ (a.episode = b.episode ∧
    a.scene_number.toNumber.getD 0 ≤ b.scene_number.toNumber.getD 0)

theorem ordLe_trans (a b c : MergedScene) (h1 : ordLe a b) (h2 : ordLe b c) :
    ordLe a c := by
  unfold ordLe at *
  omega

theorem cmpScene_total (a b : MergedScene) :
    cmpScene a b ≤ 0 ∨ cmpScene b a ≤ 0 := by
  unfold cmpScene
  by_cases hep : a.episode = b.episode
  · rw [if_pos hep, if_pos hep.symm]
    cases ha : a.scene_number.toNumber with
    | none =>
      cases hb : b.scene_number.toNumber with
      | none => left; exact le_refl 0
      | some y => left; exact le_refl 0
    | some x =>
      cases hb : b.scene_number.toNumber with
      | none => left; exact le_refl 0
      | some y =>
        dsimp only
        omega
  · rw [if_neg hep, if_neg (fun h => hep h.symm)]
    omega

theorem cmpScene_le_iff (a b : MergedScene) (ha : numOk a = true)
    (hb : numOk b = true) : cmpScene a b ≤ 0 ↔ ordLe a b := by
  unfold numOk at ha hb
  obtain ⟨x, hx⟩ := Option.isSome_iff_exists.mp ha
  obtain ⟨y, hy⟩ := Option.isSome_iff_exists.mp hb
  unfold cmpScene ordLe
  rw [hx, hy]
  by_cases hep : a.episode = b.episode
  · rw [if_pos hep]
    dsimp only
    simp only [Option.getD_some]
    constructor
    · intro h
      exact Or.inr ⟨hep, by omega⟩
    · rintro (h | ⟨_, h⟩)
      · rw [hep] at h
        exact absurd h (lt_irrefl _)
      · omega
  · rw [if_neg hep]
    simp only [Option.getD_some]
    constructor
    · intro h
      refine Or.inl ?_
      have h2 : (a.episode : Int) ≤ (b.episode : Int) := by omega
      have h3 : a.episode ≤ b.episode := by exact_mod_cast h2
      omega
    · rintro (h | ⟨heq, _⟩)
      · have h2 : (a.episode : Int) < (b.episode : Int) := by exact_mod_cast h
        omega
      · exact absurd heq hep

theorem insertScene_sorted (x : MergedScene) (hx : numOk x = true) :
    ∀ l : List MergedScene, (∀ m ∈ l, numOk m = true) → l.Pairwise ordLe →
      (insertScene x l).Pairwise ordLe := by
  intro l
  induction l with
  | nil =>
    intro _ _
    simp [insertScene]
  | cons y ys ih =>
    intro hl hs
    have hy : numOk y = true := hl y (by simp)
    rw [List.pairwise_cons] at hs
    by_cases h : cmpScene y x ≤ 0
    · simp only [insertScene, if_pos h]
      rw [List.pairwise_cons]
      constructor
      · intro z hz
        rcases (mem_insertScene z x ys).mp hz with hz | hz
        · subst hz
          exact (cmpScene_le_iff y z hy hx).mp h
        · exact hs.1 z hz
      · exact ih (fun m hm => hl m (List.mem_cons_of_mem _ hm)) hs.2
    · simp only [insertScene, if_neg h]
      have hxy : ordLe x y := by
        rcases cmpScene_total x y with h2 | h2
        · exact (cmpScene_le_iff x y hx hy).mp h2
        · exact absurd h2 h
      rw [List.pairwise_cons]
      constructor
      · intro z hz
        rcases List.mem_cons.mp hz with hz | hz
        · exact hz ▸ hxy
        · exact ordLe_trans x y z hxy (hs.1 z hz)
      · exact List.pairwise_cons.mpr ⟨hs.1, hs.2⟩

theorem sortScenes_sorted (l : List MergedScene)
    (hl : ∀ m ∈ l, numOk m = true) : (sortScenes l).Pairwise ordLe := by
  suffices h : ∀ (l acc : List MergedScene), (∀ m ∈ l, numOk m = true) →
      (∀ m ∈ acc, numOk m = true) → acc.Pairwise ordLe →
      (l.foldl (fun acc x => insertScene x acc) acc).Pairwise ordLe by
    exact h l [] hl (by simp) (by simp)
  intro l
  induction l with
  | nil => exact fun acc _ _ hs => hs
  | cons x l ih =>
    intro acc hl hacc hs
    simp only [List.foldl_cons]
    refine ih _ (fun m hm => hl m (List.mem_cons_of_mem _ hm)) ?_ ?_
    · intro m hm
      rcases (mem_insertScene m x acc).mp hm with hm | hm
      · exact hm ▸ hl x (by simp)
      · exact hacc m hm
    · exact insertScene_sorted x (hl x (by simp)) acc hacc hs

/-- A merged scene whose scene number is the non-numeric string "b". -/
def strSceneB : RawScene :=
  { episode := some 1
    scene_number := JVal.str "b"
    scene := JVal.undef
    location := ""
    timeOfDay := ""
    content := "x"
    characters := []
    props := ""
    notes := "" }

/-- Same episode, non-numeric scene number "a", appearing later. -/
def strSceneA : RawScene :=
  { strSceneB with scene_number := JVal.str "a", content := "y" }

/-- Counterexample to C8 as stated: with two non-numeric scene numbers "b"
then "a" in the same episode, the comparator coerces both to `NaN`
(treated as equal), the stable sort leaves "b" before "a", and the output
is not lexically sorted. -/
theorem sort_no_lexical_cex :
    sortedScenes [⟨[], [strSceneB, strSceneA]⟩] =
      [normScene strSceneB, normScene strSceneA] ∧
    ¬ ((sortedScenes [⟨[], [strSceneB, strSceneA]⟩]).Pairwise
        fun a b => specSceneLe a b = true) := by
  constructor
  · decide
  · intro h
    have h2 := (List.pairwise_cons.mp ((by decide :
      sortedScenes [⟨[], [strSceneB, strSceneA]⟩] =
        [normScene strSceneB, normScene strSceneA]) ▸ h)).1
      (normScene strSceneA) (by simp)
    revert h2
    decide

/-- C8 (amended): the output is a permutation of the deduplicated scenes;
when every scene number coerces to a number it is sorted by episode
ascending then numeric scene number ascending; and a comparison involving
a non-numeric scene number is treated as equal, so the stable sort keeps
such scenes in insertion order (no lexical fallback). -/
theorem mergedScenes_sort (rs : List ExtractionResult) :
    (sortedScenes rs).Perm (dedupScenes rs) ∧
    ((∀ m ∈ dedupScenes rs, numOk m = true) →
      (sortedScenes rs).Pairwise ordLe) ∧
    sortScenes [normScene strSceneB, normScene strSceneA] =
      [normScene strSceneB, normScene strSceneA] := by
  exact ⟨sortScenes_perm _, fun h => sortScenes_sorted _ h, by decide⟩

/-- Witness for C8 at a concrete all-numeric merge. -/
theorem mergedScenes_sort_witness :
    (∀ m ∈ dedupScenes [⟨[], [shortScene, tieSceneA]⟩], numOk m = true) ∧
    (sortedScenes [⟨[], [shortScene, tieSceneA]⟩]).Pairwise ordLe :=
  ⟨by decide, (mergedScenes_sort [⟨[], [shortScene, tieSceneA]⟩]).2.1 (by decide)⟩

end ScriptMatrix
